import Mathlib

/-!
Verification of the `slice-diff-patch` library (`src/lib.rs`).

The library's own code — the `Change` model, the coalescing primitives
`insert` and `remove`, the three adapters `diff_changes`, `lcs_changes`,
`wu_changes`, the wrappers `diff_diff`, `lcs_diff`, `wu_diff`, and the
`patch` engine — is embedded below, translated from the Rust source.
Vectors are `List`s, `usize` is `Nat`, and a Rust panic (a failed
`unwrap`, an out-of-bounds `Vec::remove`/`Vec::insert`/index) is an
`Option.none` result.

The three external alignment algorithms (the `diff`, `lcs-diff`, and
`wu-diff` crates) are out-of-scope collaborators; they are modelled from
the specification's collaborator contracts, and every theorem relying on
them factors through a validity relation on raw alignment records.
-/

namespace SliceDiffPatch

/-- Abstraction for the three external diff result types; mirrors
`enum Change<T> { Remove(usize), Insert((usize, T)), Update((usize, T)) }`. -/
inductive Change (T : Type u) where
  | Remove : Nat → Change T
  | Insert : Nat × T → Change T
  | Update : Nat × T → Change T
deriving DecidableEq

/-- Process an insert: upgrade `Change::Remove(n), Change::Insert((n, item))`
to `Change::Update((n, item))`.  The Rust body pops the last element of
`changes` (modelled by `getLast?`/`dropLast`), inspects it, and pushes. -/
def insert (n : Nat) (item : T) (changes : List (Change T)) : List (Change T) :=
  match changes.getLast? with
  | some (Change.Remove prev_n) =>
    if n = prev_n then
      changes.dropLast ++ [Change.Update (n, item)]
    else
      changes ++ [Change.Insert (n, item)]
  | some _ => changes ++ [Change.Insert (n, item)]
  | none => changes ++ [Change.Insert (n, item)]

/-- Process a remove: upgrade `Change::Insert((n, item)), Change::Remove(n+1)`
to `Change::Update((n, item))`. -/
def remove (n : Nat) (changes : List (Change T)) : List (Change T) :=
  match changes.getLast? with
  | some (Change.Insert (prev_n, item)) =>
    if n = prev_n + 1 then
      changes.dropLast ++ [Change.Update (prev_n, item)]
    else
      changes ++ [Change.Remove n]
  | some _ => changes ++ [Change.Remove n]
  | none => changes ++ [Change.Remove n]

/-- `Vec::remove(n)`: delete the element at index `n`; `none` models the
panic when `n` is out of bounds. -/
def vec_remove : List T → Nat → Option (List T)
  | [], _ => none
  | _ :: xs, 0 => some xs
  | x :: xs, n + 1 => (vec_remove xs n).map (fun l => x :: l)

/-- `Vec::insert(n, item)`: insert at index `n`, shifting later elements
right; `none` models the panic when `n > len`. -/
def vec_insert : List T → Nat → T → Option (List T)
  | l, 0, item => some (item :: l)
  | [], _ + 1, _ => none
  | x :: xs, n + 1, item => (vec_insert xs n item).map (fun l => x :: l)

/-- One step of the `patch` loop: the arm of the `match` on a `Change`. -/
def applyChange (a : List T) : Change T → Option (List T)
  | Change.Remove n => vec_remove a n
  | Change.Insert (n, item) => vec_insert a n item
  | Change.Update (n, item) => (vec_remove a n).bind (fun a2 => vec_insert a2 n item)

/-- Reproduce `b` from the `a` slice and a `Vec<Change>`; `none` models a
panic on an out-of-bounds position. -/
def patch (a : List T) : List (Change T) → Option (List T)
  | [] => some a
  | c :: rest => (applyChange a c).bind (fun a2 => patch a2 rest)

/-! ### Basic list and patch lemmas -/

theorem getLast?_some_decomp {l : List T} {y : T} (h : l.getLast? = some y) :
    l = l.dropLast ++ [y] := by
  cases l with
  | nil => simp at h
  | cons x xs =>
    have hne : (x :: xs : List T) ≠ [] := by simp
    rw [List.getLast?_eq_getLast _ hne] at h
    have := List.dropLast_append_getLast hne
    rw [Option.some_inj] at h
    rw [h] at this
    exact this.symm

theorem insert_spec_fuse {changes : List (Change T)} {n : Nat} {item : T}
    (h : changes.getLast? = some (Change.Remove n)) :
    insert n item changes = changes.dropLast ++ [Change.Update (n, item)] := by
  unfold insert
  rw [h]
  simp

theorem insert_spec_app {changes : List (Change T)} {n : Nat} {item : T}
    (h : changes.getLast? ≠ some (Change.Remove n)) :
    insert n item changes = changes ++ [Change.Insert (n, item)] := by
  unfold insert
  cases hl : changes.getLast? with
  | none => rfl
  | some c =>
    cases c with
    | Remove p =>
      by_cases hn : n = p
      · subst hn; exact absurd hl h
      · simp [hn]
    | Insert p => rfl
    | Update p => rfl

theorem remove_spec_fuse {changes : List (Change T)} {p : Nat} {item : T}
    (h : changes.getLast? = some (Change.Insert (p, item))) :
    remove (p + 1) changes = changes.dropLast ++ [Change.Update (p, item)] := by
  unfold remove
  rw [h]
  simp

theorem remove_spec_app {changes : List (Change T)} {n : Nat}
    (h : ∀ p (item : T), changes.getLast? = some (Change.Insert (p, item)) → n ≠ p + 1) :
    remove n changes = changes ++ [Change.Remove n] := by
  unfold remove
  cases hl : changes.getLast? with
  | none => rfl
  | some c =>
    cases c with
    | Remove p => rfl
    | Insert pi =>
      obtain ⟨p, item⟩ := pi
      have := h p item hl
      simp [this]
    | Update p => rfl

theorem patch_append (c1 c2 : List (Change T)) :
    ∀ a : List T, patch a (c1 ++ c2) = (patch a c1).bind (fun w => patch w c2) := by
  induction c1 with
  | nil => intro a; simp [patch]
  | cons c rest ih =>
    intro a
    simp only [List.cons_append, patch]
    cases applyChange a c with
    | none => simp
    | some w => simp [ih w]

theorem patch_snoc (a : List T) (c : List (Change T)) (op : Change T) :
    patch a (c ++ [op]) = (patch a c).bind (fun w => applyChange w op) := by
  rw [patch_append]
  cases patch a c with
  | none => rfl
  | some w => simp [patch]

/-- Inserting then removing one past the insertion point is removing then
re-inserting at the same point (the two halves of an `Update`). -/
theorem vec_insert_remove_swap (item : T) :
    ∀ (p : Nat) (w : List T),
      (vec_insert w p item).bind (fun w2 => vec_remove w2 (p + 1)) =
      (vec_remove w p).bind (fun w2 => vec_insert w2 p item) := by
  intro p
  induction p with
  | zero =>
    intro w
    cases w with
    | nil => simp [vec_insert, vec_remove]
    | cons x xs => simp [vec_insert, vec_remove]
  | succ m ih =>
    intro w
    cases w with
    | nil => simp [vec_insert, vec_remove]
    | cons x xs =>
      have h := ih xs
      simp only [vec_insert, vec_remove]
      cases hi : vec_insert xs m item with
      | none =>
        rw [hi] at h
        simp only [Option.none_bind] at h
        cases hr : vec_remove xs m with
        | none => simp
        | some u =>
          rw [hr] at h
          simp only [Option.some_bind] at h
          simp only [Option.map_none', Option.none_bind, Option.map_some', Option.some_bind,
            vec_insert, ← h]
      | some u =>
        rw [hi] at h
        simp only [Option.some_bind] at h
        cases hr : vec_remove xs m with
        | none =>
          rw [hr] at h
          simp only [Option.none_bind] at h
          simp only [Option.map_some', Option.some_bind, Option.map_none', Option.none_bind,
            vec_remove, h]
        | some v =>
          rw [hr] at h
          simp only [Option.some_bind] at h
          simp only [Option.map_some', Option.some_bind, vec_remove, vec_insert, h]

/-- Fusion transparency for `insert`: the coalescing primitive behaves,
through `patch`, exactly like appending a raw `Insert` operation. -/
theorem patch_insert (a : List T) (n : Nat) (item : T) (changes : List (Change T)) :
    patch a (insert n item changes) =
      (patch a changes).bind (fun w => vec_insert w n item) := by
  cases hl : changes.getLast? with
  | none =>
    rw [insert_spec_app (by simp [hl]), patch_snoc]
    rfl
  | some c =>
    cases c with
    | Remove p =>
      by_cases hn : n = p
      · subst hn
        rw [insert_spec_fuse hl, patch_snoc]
        conv_rhs => rw [getLast?_some_decomp hl, patch_snoc]
        cases patch a changes.dropLast with
        | none => rfl
        | some w =>
          simp only [Option.some_bind, applyChange]
      · rw [insert_spec_app ?_, patch_snoc]
        · rfl
        · rw [hl]
          intro hcon
          rw [Option.some_inj] at hcon
          cases hcon
          exact hn rfl
    | Insert p =>
      rw [insert_spec_app (by simp [hl]), patch_snoc]
      rfl
    | Update p =>
      rw [insert_spec_app (by simp [hl]), patch_snoc]
      rfl

/-- Fusion transparency for `remove`: the coalescing primitive behaves,
through `patch`, exactly like appending a raw `Remove` operation. -/
theorem patch_remove (a : List T) (n : Nat) (changes : List (Change T)) :
    patch a (remove n changes) =
      (patch a changes).bind (fun w => vec_remove w n) := by
  cases hl : changes.getLast? with
  | none =>
    rw [remove_spec_app (by simp [hl]), patch_snoc]
    rfl
  | some c =>
    cases c with
    | Remove p =>
      rw [remove_spec_app (by simp [hl]), patch_snoc]
      rfl
    | Insert pi =>
      obtain ⟨p, item⟩ := pi
      by_cases hn : n = p + 1
      · subst hn
        rw [remove_spec_fuse hl]
        rw [patch_snoc]
        conv_rhs => rw [getLast?_some_decomp hl, patch_snoc]
        cases patch a changes.dropLast with
        | none => rfl
        | some w =>
          simp only [Option.some_bind, applyChange]
          rw [vec_insert_remove_swap]
      · rw [remove_spec_app ?_, patch_snoc]
        · rfl
        · intro q it hq
          rw [hl] at hq
          rw [Option.some_inj] at hq
          cases hq
          exact hn
    | Update p =>
      rw [remove_spec_app (by simp [hl]), patch_snoc]
      rfl

/-! ### The edit-script adapter (`diff_changes`, over `diff::Result`) -/

/-- `diff::Result<T>`: one record per aligned position, `Left` for a
source-only element, `Both` for a common pair, `Right` for a target-only
element. -/
inductive DiffResult (T : Type u) where
  | Left : T → DiffResult T
  | Both : T → T → DiffResult T
  | Right : T → DiffResult T
deriving DecidableEq

/-- The loop body of `diff_changes`: walk the records with the enumeration
index `i` and the `removed` counter, calling `remove`/`insert` at the
working position `n = i - removed`. -/
def diff_changes_go : List (DiffResult T) → Nat → Nat → List (Change T) → List (Change T)
  | [], _, _, changes => changes
  | DiffResult.Left _ :: rest, i, removed, changes =>
    diff_changes_go rest (i + 1) (removed + 1) (remove (i - removed) changes)
  | DiffResult.Right r :: rest, i, removed, changes =>
    diff_changes_go rest (i + 1) removed (insert (i - removed) r changes)
  | DiffResult.Both _ _ :: rest, i, removed, changes =>
    diff_changes_go rest (i + 1) removed changes

/-- Convert a slice of `diff::Result` into a `Vec<Change>`. -/
def diff_changes (d : List (DiffResult T)) : List (Change T) :=
  diff_changes_go d 0 0 []

/-- The source-sequence projection of an edit script: `Left` and `Both`
records in order. -/
def projL : List (DiffResult T) → List T
  | [] => []
  | DiffResult.Left x :: rest => x :: projL rest
  | DiffResult.Both x _ :: rest => x :: projL rest
  | DiffResult.Right _ :: rest => projL rest

/-- The target-sequence projection of an edit script: `Right` and `Both`
records in order. -/
def projR : List (DiffResult T) → List T
  | [] => []
  | DiffResult.Left _ :: rest => projR rest
  | DiffResult.Both _ y :: rest => y :: projR rest
  | DiffResult.Right y :: rest => y :: projR rest

/-- Every `Both` record pairs two equal elements. -/
def BothOk : List (DiffResult T) → Prop
  | [] => True
  | DiffResult.Both x y :: rest => x = y ∧ BothOk rest
  | _ :: rest => BothOk rest

theorem vec_remove_append (b1 : List T) (x : T) (a2 : List T) :
    vec_remove (b1 ++ x :: a2) b1.length = some (b1 ++ a2) := by
  induction b1 with
  | nil => rfl
  | cons h t ih => simp [vec_remove, ih]

theorem vec_insert_append (b1 : List T) (x : T) (a2 : List T) :
    vec_insert (b1 ++ a2) b1.length x = some (b1 ++ x :: a2) := by
  induction b1 with
  | nil => simp [vec_insert]
  | cons h t ih => simp [vec_insert, ih]

/-- Round-trip invariant for the `diff_changes` loop: if the changes built
so far rebuild `b1 ++ a2` from `a`, with the working position `i - removed`
sitting at the boundary `b1.length`, then processing a valid remaining edit
script extends the rebuilt prefix to `b1 ++ b2`. -/
theorem diff_go_correct (a : List T) :
    ∀ (d : List (DiffResult T)) (a2 b1 : List T) (changes : List (Change T))
      (i removed : Nat),
      removed ≤ i → i - removed = b1.length →
      projL d = a2 → BothOk d →
      patch a changes = some (b1 ++ a2) →
      patch a (diff_changes_go d i removed changes) = some (b1 ++ projR d) := by
  intro d
  induction d with
  | nil =>
    intro a2 b1 changes i removed _ _ hL _ hp
    simp only [projL] at hL
    subst hL
    simpa [diff_changes_go, projR] using hp
  | cons j rest ih =>
    intro a2 b1 changes i removed hle hpos hL hB hp
    cases j with
    | Left x =>
      simp only [projL] at hL
      simp only [BothOk] at hB
      subst hL
      simp only [diff_changes_go, projR]
      apply ih (projL rest) b1 _ (i + 1) (removed + 1)
        (by omega) (by omega) rfl hB
      rw [patch_remove, hp, Option.some_bind, hpos, vec_remove_append]
    | Right y =>
      simp only [projL] at hL
      simp only [BothOk] at hB
      simp only [diff_changes_go, projR]
      have : b1 ++ y :: projR rest = (b1 ++ [y]) ++ projR rest := by simp
      rw [this]
      apply ih a2 (b1 ++ [y]) _ (i + 1) removed
        (by omega) (by simp; omega) hL hB
      rw [patch_insert, hp, Option.some_bind, hpos, vec_insert_append]
      simp
    | Both x y =>
      simp only [projL] at hL
      simp only [BothOk] at hB
      obtain ⟨hxy, hB⟩ := hB
      subst hL
      subst hxy
      simp only [diff_changes_go, projR]
      have : b1 ++ x :: projR rest = (b1 ++ [x]) ++ projR rest := by simp
      rw [this]
      apply ih (projL rest) (b1 ++ [x]) _ (i + 1) removed
        (by omega) (by simp; omega) rfl hB
      simpa using hp

/-- Round-trip for the edit-script adapter: any valid edit script for
`(a, b)`, fed to `diff_changes`, patches `a` into `b`. -/
theorem patch_diff_changes {a b : List T} {d : List (DiffResult T)}
    (hL : projL d = a) (hR : projR d = b) (hB : BothOk d) :
    patch a (diff_changes d) = some b := by
  subst hR
  have := diff_go_correct a d a [] [] 0 0 (le_refl 0) rfl hL hB (by simp [patch])
  simpa [diff_changes] using this

/-! ### The LCS-style adapter (`lcs_changes`, over `lcs_diff::DiffResult`) -/

/-- `lcs_diff::DiffElement<T>`: optional old/new sequence indices plus the
element payload. -/
structure DiffElement (T : Type u) where
  old_index : Option Nat
  new_index : Option Nat
  data : T
deriving DecidableEq

/-- `lcs_diff::DiffResult<T>`. -/
inductive LcsDiffResult (T : Type u) where
  | Removed : DiffElement T → LcsDiffResult T
  | Common : DiffElement T → LcsDiffResult T
  | Added : DiffElement T → LcsDiffResult T
deriving DecidableEq

/-- The loop body of `lcs_changes`; a `none` result models the panic of
`old_index.unwrap()` / `new_index.unwrap()` on a missing index. -/
def lcs_changes_go : List (LcsDiffResult T) → Nat → Nat → List (Change T) →
    Option (List (Change T))
  | [], _, _, changes => some changes
  | LcsDiffResult.Removed r :: rest, removed, added, changes =>
    match r.old_index with
    | none => none
    | some k => lcs_changes_go rest (removed + 1) added (remove (k + added - removed) changes)
  | LcsDiffResult.Added r :: rest, removed, added, changes =>
    match r.new_index with
    | none => none
    | some n => lcs_changes_go rest removed (added + 1) (insert n r.data changes)
  | LcsDiffResult.Common _ :: rest, removed, added, changes =>
    lcs_changes_go rest removed added changes

/-- Convert a slice of `lcs_diff::DiffResult` into a `Vec<Change>`. -/
def lcs_changes (d : List (LcsDiffResult T)) : Option (List (Change T)) :=
  lcs_changes_go d 0 0 []

/-! ### The Wu-style adapter (`wu_changes`, over `wu_diff::DiffResult`) -/

/-- `wu_diff::DiffElement`: optional old/new sequence indices, no payload. -/
structure WuDiffElement where
  old_index : Option Nat
  new_index : Option Nat
deriving DecidableEq

/-- `wu_diff::DiffResult`. -/
inductive WuDiffResult where
  | Removed : WuDiffElement → WuDiffResult
  | Common : WuDiffElement → WuDiffResult
  | Added : WuDiffElement → WuDiffResult
deriving DecidableEq

/-- The loop body of `wu_changes`; a `none` result models the panic of a
failed `unwrap` on a missing index or of the `b[n]` slice access when `n`
is out of bounds of `b`. -/
def wu_changes_go (b : List T) : List WuDiffResult → Nat → Nat → List (Change T) →
    Option (List (Change T))
  | [], _, _, changes => some changes
  | WuDiffResult.Removed r :: rest, removed, added, changes =>
    match r.old_index with
    | none => none
    | some k => wu_changes_go b rest (removed + 1) added (remove (k + added - removed) changes)
  | WuDiffResult.Added r :: rest, removed, added, changes =>
    match r.new_index with
    | none => none
    | some n =>
      match b[n]? with
      | none => none
      | some item => wu_changes_go b rest removed (added + 1) (insert n item changes)
  | WuDiffResult.Common _ :: rest, removed, added, changes =>
    wu_changes_go b rest removed added changes

/-- Convert a slice of `wu_diff::DiffResult` into a `Vec<Change>`, cloning
the payload of additions out of `b`. -/
def wu_changes (d : List WuDiffResult) (b : List T) : Option (List (Change T)) :=
  wu_changes_go b d 0 0 []

/-! ### Validity relations for raw index-based alignment records -/

/-- `LcsAligned oi ni a2 b2 d`: walked from old-cursor `oi` and new-cursor
`ni`, the records `d` consume exactly the source suffix `a2` and produce
exactly the target suffix `b2`, with every `Removed` carrying its
old-sequence index and every `Added` carrying its new-sequence index and
payload. -/
inductive LcsAligned {T : Type u} : Nat → Nat → List T → List T → List (LcsDiffResult T) → Prop
  | nil : ∀ oi ni, LcsAligned oi ni [] [] []
  | common : ∀ oi ni x a2 b2 e d, LcsAligned (oi + 1) (ni + 1) a2 b2 d →
      LcsAligned oi ni (x :: a2) (x :: b2) (LcsDiffResult.Common e :: d)
  | removed : ∀ oi ni x a2 b2 e d, e.old_index = some oi →
      LcsAligned (oi + 1) ni a2 b2 d →
      LcsAligned oi ni (x :: a2) b2 (LcsDiffResult.Removed e :: d)
  | added : ∀ oi ni a2 b2 e d, e.new_index = some ni →
      LcsAligned oi (ni + 1) a2 b2 d →
      LcsAligned oi ni a2 (e.data :: b2) (LcsDiffResult.Added e :: d)

/-- `WuAligned oi ni a2 b2 d`: as `LcsAligned`, for payload-free Wu
records; the `Added` target element is unconstrained in the record and
recovered from the target sequence by the adapter. -/
inductive WuAligned {T : Type u} : Nat → Nat → List T → List T → List WuDiffResult → Prop
  | nil : ∀ oi ni, WuAligned oi ni [] [] []
  | common : ∀ oi ni (x : T) a2 b2 e d, WuAligned (oi + 1) (ni + 1) a2 b2 d →
      WuAligned oi ni (x :: a2) (x :: b2) (WuDiffResult.Common e :: d)
  | removed : ∀ oi ni (x : T) a2 b2 e d, e.old_index = some oi →
      WuAligned (oi + 1) ni a2 b2 d →
      WuAligned oi ni (x :: a2) b2 (WuDiffResult.Removed e :: d)
  | added : ∀ oi ni a2 (y : T) b2 e d, e.new_index = some ni →
      WuAligned oi (ni + 1) a2 b2 d →
      WuAligned oi ni a2 (y :: b2) (WuDiffResult.Added e :: d)

theorem getElem?_append_cons (b1 : List T) (x : T) (a2 : List T) :
    (b1 ++ x :: a2)[b1.length]? = some x := by
  induction b1 with
  | nil => simp
  | cons h t ih => simpa using ih

/-- Round-trip invariant for the `lcs_changes` loop: the running counters
satisfy `oi + added = ni + removed`, and the working position of every
operation lands on the boundary between the rebuilt target prefix and the
untouched source suffix. -/
theorem lcs_go_correct (a : List T) {oi ni : Nat} {a2 b2 : List T}
    {d : List (LcsDiffResult T)} (hA : LcsAligned oi ni a2 b2 d) :
    ∀ (b1 : List T) (changes : List (Change T)) (removed added : Nat),
      patch a changes = some (b1 ++ a2) →
      b1.length = ni →
      oi + added = ni + removed →
      ∃ cs, lcs_changes_go d removed added changes = some cs ∧
        patch a cs = some (b1 ++ b2) := by
  induction hA with
  | nil oi ni =>
    intro b1 changes removed added hp _ _
    exact ⟨changes, rfl, by simpa using hp⟩
  | common oi ni x a2 b2 e d _ ih =>
    intro b1 changes removed added hp hlen hcnt
    simp only [lcs_changes_go]
    have ⟨cs, hcs, hpc⟩ := ih (b1 ++ [x]) changes removed added
      (by simpa using hp) (by simp [hlen]) (by omega)
    exact ⟨cs, hcs, by simpa using hpc⟩
  | removed oi ni x a2 b2 e d hidx _ ih =>
    intro b1 changes removed added hp hlen hcnt
    simp only [lcs_changes_go, hidx]
    have hpos : oi + added - removed = b1.length := by omega
    have ⟨cs, hcs, hpc⟩ := ih b1 (remove (oi + added - removed) changes) (removed + 1) added
      (by rw [patch_remove, hp, Option.some_bind, hpos, vec_remove_append]) hlen (by omega)
    exact ⟨cs, hcs, hpc⟩
  | added oi ni a2 b2 e d hidx _ ih =>
    intro b1 changes removed added hp hlen hcnt
    simp only [lcs_changes_go, hidx]
    have ⟨cs, hcs, hpc⟩ := ih (b1 ++ [e.data]) (insert ni e.data changes) removed (added + 1)
      (by rw [patch_insert, hp, Option.some_bind, ← hlen, vec_insert_append]
          simp) (by simp [hlen]) (by omega)
    exact ⟨cs, hcs, by simpa using hpc⟩

/-- Round-trip for the LCS-style adapter: any aligned record stream for
`(a, b)`, fed to `lcs_changes`, succeeds and patches `a` into `b`. -/
theorem patch_lcs_changes {a b : List T} {d : List (LcsDiffResult T)}
    (hA : LcsAligned 0 0 a b d) :
    ∃ cs, lcs_changes d = some cs ∧ patch a cs = some b := by
  have ⟨cs, hcs, hpc⟩ := lcs_go_correct a hA [] [] 0 0 (by simp [patch]) rfl rfl
  exact ⟨cs, hcs, by simpa using hpc⟩

/-- Round-trip invariant for the `wu_changes` loop; identical index
bookkeeping to `lcs_go_correct`, with the addition payload fetched from
the full target sequence `b1 ++ b2`. -/
theorem wu_go_correct (a : List T) {oi ni : Nat} {a2 b2 : List T}
    {d : List WuDiffResult} (hA : WuAligned oi ni a2 b2 d) :
    ∀ (bfull b1 : List T) (changes : List (Change T)) (removed added : Nat),
      bfull = b1 ++ b2 →
      patch a changes = some (b1 ++ a2) →
      b1.length = ni →
      oi + added = ni + removed →
      ∃ cs, wu_changes_go bfull d removed added changes = some cs ∧
        patch a cs = some bfull := by
  induction hA with
  | nil oi ni =>
    intro bfull b1 changes removed added hb hp _ _
    exact ⟨changes, rfl, by rw [hb]; simpa using hp⟩
  | common oi ni x a2 b2 e d _ ih =>
    intro bfull b1 changes removed added hb hp hlen hcnt
    simp only [wu_changes_go]
    exact ih bfull (b1 ++ [x]) changes removed added
      (by simp [hb]) (by simpa using hp) (by simp [hlen]) (by omega)
  | removed oi ni x a2 b2 e d hidx _ ih =>
    intro bfull b1 changes removed added hb hp hlen hcnt
    simp only [wu_changes_go, hidx]
    have hpos : oi + added - removed = b1.length := by omega
    exact ih bfull b1 (remove (oi + added - removed) changes) (removed + 1) added hb
      (by rw [patch_remove, hp, Option.some_bind, hpos, vec_remove_append]) hlen (by omega)
  | added oi ni a2 y b2 e d hidx _ ih =>
    intro bfull b1 changes removed added hb hp hlen hcnt
    have hget : bfull[ni]? = some y := by
      rw [hb, ← hlen, getElem?_append_cons]
    simp only [wu_changes_go, hidx, hget]
    exact ih bfull (b1 ++ [y]) (insert ni y changes) removed (added + 1)
      (by simp [hb]) (by rw [patch_insert, hp, Option.some_bind, ← hlen, vec_insert_append]
                         simp) (by simp [hlen]) (by omega)

/-- Round-trip for the Wu-style adapter. -/
theorem patch_wu_changes {a b : List T} {d : List WuDiffResult}
    (hA : WuAligned 0 0 a b d) :
    ∃ cs, wu_changes d b = some cs ∧ patch a cs = some b := by
  exact wu_go_correct a hA b [] [] 0 0 (by simp) (by simp [patch]) rfl rfl

/-! ### Modelled external collaborators

The three alignment algorithms live in external crates and are declared
out of scope by the specification, which fixes only their contracts
(section 6: an edit-script algorithm producing common / source-only /
target-only records, and LCS/Wu-style algorithms producing Removed/Added
records with old/new indices).  They are modelled here from those
contracts as LCS-guided alignments; the fuel argument makes them
kernel-computable. -/

/-- Modelled from the spec: length of a longest common subsequence of the
two lists, used only for the tie-breaking choices of the modelled
alignment algorithms (fuel-structured recursion). -/
def lcsLenF [DecidableEq T] : Nat → List T → List T → Nat
  | 0, _, _ => 0
  | _ + 1, [], _ => 0
  | _ + 1, _ :: _, [] => 0
  | f + 1, x :: xs, y :: ys =>
    if x = y then lcsLenF f xs ys + 1
    else max (lcsLenF f (x :: xs) ys) (lcsLenF f xs (y :: ys))

/-- Modelled from the spec: LCS length with the fuel fixed to a sufficient
value. -/
def lcsLen [DecidableEq T] (a b : List T) : Nat :=
  lcsLenF (a.length + b.length) a b

/-- Modelled from the spec: the edit-script collaborator (the external
`diff::slice` algorithm, declared out of scope): an LCS-guided alignment
emitting common / source-only / target-only records, emitting the
source-only record on ties. -/
def diffSliceLF [DecidableEq T] : Nat → List T → List T → List (DiffResult T)
  | 0, _, _ => []
  | _ + 1, [], [] => []
  | f + 1, x :: xs, [] => DiffResult.Left x :: diffSliceLF f xs []
  | f + 1, [], y :: ys => DiffResult.Right y :: diffSliceLF f [] ys
  | f + 1, x :: xs, y :: ys =>
    if x = y then DiffResult.Both x y :: diffSliceLF f xs ys
    else if lcsLen (x :: xs) ys ≤ lcsLen xs (y :: ys) then
      DiffResult.Left x :: diffSliceLF f xs (y :: ys)
    else
      DiffResult.Right y :: diffSliceLF f (x :: xs) ys

/-- Modelled from the spec: `diff::slice` with the fuel fixed to a
sufficient value. -/
def diff_slice [DecidableEq T] (a b : List T) : List (DiffResult T) :=
  diffSliceLF (a.length + b.length) a b

/-- Modelled from the spec: the alignment walk underlying the external
`lcs_diff::diff` algorithm (out of scope): as `diffSliceLF` but emitting
the target-only record on ties, matching the record order of the LCS
collaborator. -/
def diffSliceRF [DecidableEq T] : Nat → List T → List T → List (DiffResult T)
  | 0, _, _ => []
  | _ + 1, [], [] => []
  | f + 1, x :: xs, [] => DiffResult.Left x :: diffSliceRF f xs []
  | f + 1, [], y :: ys => DiffResult.Right y :: diffSliceRF f [] ys
  | f + 1, x :: xs, y :: ys =>
    if x = y then DiffResult.Both x y :: diffSliceRF f xs ys
    else if lcsLen xs (y :: ys) ≤ lcsLen (x :: xs) ys then
      DiffResult.Right y :: diffSliceRF f (x :: xs) ys
    else
      DiffResult.Left x :: diffSliceRF f xs (y :: ys)

/-- Modelled from the spec: the right-biased alignment with the fuel fixed
to a sufficient value. -/
def lcs_align [DecidableEq T] (a b : List T) : List (DiffResult T) :=
  diffSliceRF (a.length + b.length) a b

/-- Modelled from the spec: linearize an edit script into LCS-style
records carrying explicit old/new sequence indices and the payload,
walking the script with an old-sequence and a new-sequence cursor. -/
def toLcsRecs : List (DiffResult T) → Nat → Nat → List (LcsDiffResult T)
  | [], _, _ => []
  | DiffResult.Left x :: d, oi, ni =>
    LcsDiffResult.Removed ⟨some oi, none, x⟩ :: toLcsRecs d (oi + 1) ni
  | DiffResult.Right y :: d, oi, ni =>
    LcsDiffResult.Added ⟨none, some ni, y⟩ :: toLcsRecs d oi (ni + 1)
  | DiffResult.Both x _ :: d, oi, ni =>
    LcsDiffResult.Common ⟨some oi, some ni, x⟩ :: toLcsRecs d (oi + 1) (ni + 1)

/-- Modelled from the spec: linearize an edit script into payload-free
Wu-style records carrying explicit old/new sequence indices. -/
def toWuRecs : List (DiffResult T) → Nat → Nat → List WuDiffResult
  | [], _, _ => []
  | DiffResult.Left _ :: d, oi, ni =>
    WuDiffResult.Removed ⟨some oi, none⟩ :: toWuRecs d (oi + 1) ni
  | DiffResult.Right _ :: d, oi, ni =>
    WuDiffResult.Added ⟨none, some ni⟩ :: toWuRecs d oi (ni + 1)
  | DiffResult.Both _ _ :: d, oi, ni =>
    WuDiffResult.Common ⟨some oi, some ni⟩ :: toWuRecs d (oi + 1) (ni + 1)

/-- Modelled from the spec: the external `lcs_diff::diff` collaborator. -/
def lcs_diff_alg [DecidableEq T] (a b : List T) : List (LcsDiffResult T) :=
  toLcsRecs (lcs_align a b) 0 0

/-- Modelled from the spec: the external `wu_diff::diff` collaborator. -/
def wu_diff_alg [DecidableEq T] (a b : List T) : List WuDiffResult :=
  toWuRecs (diff_slice a b) 0 0

/-- Calculate the diff between `a` and `b` via `diff::slice` and convert
to a `Vec<Change>`. -/
def diff_diff [DecidableEq T] (a b : List T) : List (Change T) :=
  diff_changes (diff_slice a b)

/-- Calculate the diff between `a` and `b` via `lcs_diff::diff` and
convert to a `Vec<Change>`. -/
def lcs_diff [DecidableEq T] (a b : List T) : Option (List (Change T)) :=
  lcs_changes (lcs_diff_alg a b)

/-- Calculate the diff between `a` and `b` via `wu_diff::diff` and convert
to a `Vec<Change>`. -/
def wu_diff [DecidableEq T] (a b : List T) : Option (List (Change T)) :=
  wu_changes (wu_diff_alg a b) b

/-! ### Validity of the modelled collaborators -/

theorem diffSliceLF_valid [DecidableEq T] :
    ∀ (f : Nat) (a b : List T), a.length + b.length ≤ f →
      projL (diffSliceLF f a b) = a ∧ projR (diffSliceLF f a b) = b ∧
        BothOk (diffSliceLF f a b) := by
  intro f
  induction f with
  | zero =>
    intro a b h
    cases a with
    | cons x xs => simp at h
    | nil =>
      cases b with
      | cons y ys => simp at h
      | nil => simp [diffSliceLF, projL, projR, BothOk]
  | succ f ih =>
    intro a b h
    cases a with
    | nil =>
      cases b with
      | nil => simp [diffSliceLF, projL, projR, BothOk]
      | cons y ys =>
        have hrec := ih [] ys (by simp at h ⊢; omega)
        simp only [diffSliceLF, projL, projR, BothOk]
        exact ⟨hrec.1, by rw [hrec.2.1], hrec.2.2⟩
    | cons x xs =>
      cases b with
      | nil =>
        have hrec := ih xs [] (by simp at h ⊢; omega)
        simp only [diffSliceLF, projL, projR, BothOk]
        exact ⟨by rw [hrec.1], hrec.2.1, hrec.2.2⟩
      | cons y ys =>
        by_cases hxy : x = y
        · subst hxy
          have hrec := ih xs ys (by simp at h ⊢; omega)
          simp only [diffSliceLF, if_pos rfl, projL, projR, BothOk]
          exact ⟨by rw [hrec.1], by rw [hrec.2.1], trivial, hrec.2.2⟩
        · by_cases hle : lcsLen (x :: xs) ys ≤ lcsLen xs (y :: ys)
          · have hrec := ih xs (y :: ys) (by simp at h ⊢; omega)
            simp only [diffSliceLF, if_neg hxy, if_pos hle, projL, projR, BothOk]
            exact ⟨by rw [hrec.1], hrec.2.1, hrec.2.2⟩
          · have hrec := ih (x :: xs) ys (by simp at h ⊢; omega)
            simp only [diffSliceLF, if_neg hxy, if_neg hle, projL, projR, BothOk]
            exact ⟨hrec.1, by rw [hrec.2.1], hrec.2.2⟩

theorem diffSliceRF_valid [DecidableEq T] :
    ∀ (f : Nat) (a b : List T), a.length + b.length ≤ f →
      projL (diffSliceRF f a b) = a ∧ projR (diffSliceRF f a b) = b ∧
        BothOk (diffSliceRF f a b) := by
  intro f
  induction f with
  | zero =>
    intro a b h
    cases a with
    | cons x xs => simp at h
    | nil =>
      cases b with
      | cons y ys => simp at h
      | nil => simp [diffSliceRF, projL, projR, BothOk]
  | succ f ih =>
    intro a b h
    cases a with
    | nil =>
      cases b with
      | nil => simp [diffSliceRF, projL, projR, BothOk]
      | cons y ys =>
        have hrec := ih [] ys (by simp at h ⊢; omega)
        simp only [diffSliceRF, projL, projR, BothOk]
        exact ⟨hrec.1, by rw [hrec.2.1], hrec.2.2⟩
    | cons x xs =>
      cases b with
      | nil =>
        have hrec := ih xs [] (by simp at h ⊢; omega)
        simp only [diffSliceRF, projL, projR, BothOk]
        exact ⟨by rw [hrec.1], hrec.2.1, hrec.2.2⟩
      | cons y ys =>
        by_cases hxy : x = y
        · subst hxy
          have hrec := ih xs ys (by simp at h ⊢; omega)
          simp only [diffSliceRF, if_pos rfl, projL, projR, BothOk]
          exact ⟨by rw [hrec.1], by rw [hrec.2.1], trivial, hrec.2.2⟩
        · by_cases hle : lcsLen xs (y :: ys) ≤ lcsLen (x :: xs) ys
          · have hrec := ih (x :: xs) ys (by simp at h ⊢; omega)
            simp only [diffSliceRF, if_neg hxy, if_pos hle, projL, projR, BothOk]
            exact ⟨hrec.1, by rw [hrec.2.1], hrec.2.2⟩
          · have hrec := ih xs (y :: ys) (by simp at h ⊢; omega)
            simp only [diffSliceRF, if_neg hxy, if_neg hle, projL, projR, BothOk]
            exact ⟨by rw [hrec.1], hrec.2.1, hrec.2.2⟩

theorem diff_slice_valid [DecidableEq T] (a b : List T) :
    projL (diff_slice a b) = a ∧ projR (diff_slice a b) = b ∧
      BothOk (diff_slice a b) :=
  diffSliceLF_valid (a.length + b.length) a b (le_refl _)

theorem lcs_align_valid [DecidableEq T] (a b : List T) :
    projL (lcs_align a b) = a ∧ projR (lcs_align a b) = b ∧
      BothOk (lcs_align a b) :=
  diffSliceRF_valid (a.length + b.length) a b (le_refl _)

theorem toLcsRecs_aligned :
    ∀ (d : List (DiffResult T)) (a2 b2 : List T) (oi ni : Nat),
      projL d = a2 → projR d = b2 → BothOk d →
      LcsAligned oi ni a2 b2 (toLcsRecs d oi ni) := by
  intro d
  induction d with
  | nil =>
    intro a2 b2 oi ni hL hR _
    simp only [projL] at hL
    simp only [projR] at hR
    subst hL; subst hR
    exact LcsAligned.nil oi ni
  | cons j rest ih =>
    intro a2 b2 oi ni hL hR hB
    cases j with
    | Left x =>
      simp only [projL] at hL
      simp only [projR] at hR
      simp only [BothOk] at hB
      subst hL
      exact LcsAligned.removed oi ni x _ _ _ _ rfl (ih _ _ _ _ rfl hR hB)
    | Right y =>
      simp only [projL] at hL
      simp only [projR] at hR
      simp only [BothOk] at hB
      subst hR
      exact LcsAligned.added oi ni _ _ ⟨none, some ni, y⟩ _ rfl (ih _ _ _ _ hL rfl hB)
    | Both x y =>
      simp only [projL] at hL
      simp only [projR] at hR
      simp only [BothOk] at hB
      obtain ⟨hxy, hB⟩ := hB
      subst hxy
      subst hL
      subst hR
      exact LcsAligned.common oi ni x _ _ _ _ (ih _ _ _ _ rfl rfl hB)

theorem toWuRecs_aligned :
    ∀ (d : List (DiffResult T)) (a2 b2 : List T) (oi ni : Nat),
      projL d = a2 → projR d = b2 → BothOk d →
      WuAligned oi ni a2 b2 (toWuRecs d oi ni) := by
  intro d
  induction d with
  | nil =>
    intro a2 b2 oi ni hL hR _
    simp only [projL] at hL
    simp only [projR] at hR
    subst hL; subst hR
    exact WuAligned.nil oi ni
  | cons j rest ih =>
    intro a2 b2 oi ni hL hR hB
    cases j with
    | Left x =>
      simp only [projL] at hL
      simp only [projR] at hR
      simp only [BothOk] at hB
      subst hL
      exact WuAligned.removed oi ni x _ _ _ _ rfl (ih _ _ _ _ rfl hR hB)
    | Right y =>
      simp only [projL] at hL
      simp only [projR] at hR
      simp only [BothOk] at hB
      subst hR
      exact WuAligned.added oi ni _ y _ ⟨none, some ni⟩ _ rfl (ih _ _ _ _ hL rfl hB)
    | Both x y =>
      simp only [projL] at hL
      simp only [projR] at hR
      simp only [BothOk] at hB
      obtain ⟨hxy, hB⟩ := hB
      subst hxy
      subst hL
      subst hR
      exact WuAligned.common oi ni x _ _ _ _ (ih _ _ _ _ rfl rfl hB)

/-! ### Round-trip through the modelled collaborators -/

theorem patch_diff_diff [DecidableEq T] (a b : List T) :
    patch a (diff_diff a b) = some b := by
  have h := diff_slice_valid a b
  exact patch_diff_changes h.1 h.2.1 h.2.2

theorem lcs_diff_roundtrip [DecidableEq T] (a b : List T) :
    ∃ cs, lcs_diff a b = some cs ∧ patch a cs = some b := by
  have h := lcs_align_valid a b
  exact patch_lcs_changes (toLcsRecs_aligned _ _ _ _ _ h.1 h.2.1 h.2.2)

theorem wu_diff_roundtrip [DecidableEq T] (a b : List T) :
    ∃ cs, wu_diff a b = some cs ∧ patch a cs = some b := by
  have h := diff_slice_valid a b
  exact patch_wu_changes (toWuRecs_aligned _ _ _ _ _ h.1 h.2.1 h.2.2)

/-! ### Diffing a sequence against itself -/

theorem diffSliceLF_self [DecidableEq T] :
    ∀ (f : Nat) (s : List T), s.length + s.length ≤ f →
      diffSliceLF f s s = s.map (fun x => DiffResult.Both x x) := by
  intro f
  induction f with
  | zero =>
    intro s h
    cases s with
    | nil => simp [diffSliceLF]
    | cons x xs => simp at h
  | succ f ih =>
    intro s h
    cases s with
    | nil => simp [diffSliceLF]
    | cons x xs =>
      simp only [diffSliceLF, if_pos rfl, List.map]
      rw [ih xs (by simp at h ⊢; omega)]
      simp

theorem diffSliceRF_self [DecidableEq T] :
    ∀ (f : Nat) (s : List T), s.length + s.length ≤ f →
      diffSliceRF f s s = s.map (fun x => DiffResult.Both x x) := by
  intro f
  induction f with
  | zero =>
    intro s h
    cases s with
    | nil => simp [diffSliceRF]
    | cons x xs => simp at h
  | succ f ih =>
    intro s h
    cases s with
    | nil => simp [diffSliceRF]
    | cons x xs =>
      simp only [diffSliceRF, if_pos rfl, List.map]
      rw [ih xs (by simp at h ⊢; omega)]
      simp

theorem diff_changes_go_boths (l : List T) :
    ∀ (i removed : Nat) (changes : List (Change T)),
      diff_changes_go (l.map fun x => DiffResult.Both x x) i removed changes = changes := by
  induction l with
  | nil => intro i removed changes; rfl
  | cons x xs ih => intro i removed changes; simp only [List.map, diff_changes_go]; exact ih _ _ _

theorem lcs_changes_go_boths (l : List T) :
    ∀ (oi ni removed added : Nat) (changes : List (Change T)),
      lcs_changes_go (toLcsRecs (l.map fun x => DiffResult.Both x x) oi ni)
        removed added changes = some changes := by
  induction l with
  | nil => intro oi ni removed added changes; rfl
  | cons x xs ih =>
    intro oi ni removed added changes
    simp only [List.map, toLcsRecs, lcs_changes_go]
    exact ih _ _ _ _ _

theorem wu_changes_go_boths (l : List T) (b : List T) :
    ∀ (oi ni removed added : Nat) (changes : List (Change T)),
      wu_changes_go b (toWuRecs (l.map fun x => DiffResult.Both x x) oi ni)
        removed added changes = some changes := by
  induction l with
  | nil => intro oi ni removed added changes; rfl
  | cons x xs ih =>
    intro oi ni removed added changes
    simp only [List.map, toWuRecs, wu_changes_go]
    exact ih _ _ _ _ _

theorem diff_diff_self [DecidableEq T] (s : List T) : diff_diff s s = [] := by
  unfold diff_diff diff_slice diff_changes
  rw [diffSliceLF_self _ s (le_refl _)]
  exact diff_changes_go_boths s 0 0 []

theorem lcs_diff_self [DecidableEq T] (s : List T) : lcs_diff s s = some [] := by
  unfold lcs_diff lcs_diff_alg lcs_align lcs_changes
  rw [diffSliceRF_self _ s (le_refl _)]
  exact lcs_changes_go_boths s 0 0 0 0 []

theorem wu_diff_self [DecidableEq T] (s : List T) : wu_diff s s = some [] := by
  unfold wu_diff wu_diff_alg diff_slice wu_changes
  rw [diffSliceLF_self _ s (le_refl _)]
  exact wu_changes_go_boths s s 0 0 0 0 []

/-! ### Bounds characterization of the patch operations -/

theorem vec_remove_none_iff :
    ∀ (w : List T) (n : Nat), vec_remove w n = none ↔ w.length ≤ n := by
  intro w
  induction w with
  | nil => intro n; simp [vec_remove]
  | cons x xs ih =>
    intro n
    cases n with
    | zero => simp [vec_remove]
    | succ m =>
      simp only [vec_remove, Option.map_eq_none']
      rw [ih m]
      simp

theorem vec_insert_isSome_iff :
    ∀ (w : List T) (n : Nat) (x : T), (vec_insert w n x).isSome = true ↔ n ≤ w.length := by
  intro w
  induction w with
  | nil =>
    intro n x
    cases n with
    | zero => simp [vec_insert]
    | succ m => simp [vec_insert]
  | cons y xs ih =>
    intro n x
    cases n with
    | zero => simp [vec_insert]
    | succ m =>
      simp only [vec_insert, Option.isSome_map']
      rw [ih m]
      simp

theorem update_none_iff :
    ∀ (w : List T) (n : Nat) (x : T),
      (vec_remove w n).bind (fun w2 => vec_insert w2 n x) = none ↔ w.length ≤ n := by
  intro w
  induction w with
  | nil => intro n x; simp [vec_remove]
  | cons y xs ih =>
    intro n x
    cases n with
    | zero => simp [vec_remove, vec_insert]
    | succ m =>
      simp only [vec_remove]
      cases hr : vec_remove xs m with
      | none =>
        have hlen := (vec_remove_none_iff xs m).mp hr
        simp [hlen]
      | some u =>
        have := ih m x
        rw [hr] at this
        simp only [Option.some_bind] at this
        simp only [Option.map_some', Option.some_bind, vec_insert, Option.map_eq_none']
        rw [this]
        simp

/-! ### Fusion canonicality (invariant I2) -/

/-- An adjacent pair of changes is admissible unless it is one of the two
raw patterns that the coalescing primitives always fuse into an `Update`:
`Remove(n)` directly followed by `Insert((n, x))`, or `Insert((n, x))`
directly followed by `Remove(n+1)`. -/
def fusedPair : Change T → Change T → Bool
  | Change.Remove a, Change.Insert (m, _) => decide (m ≠ a)
  | Change.Insert (p, _), Change.Remove m => decide (m ≠ p + 1)
  | _, _ => true

/-- Every adjacent pair of the change list is admissible. -/
def fused : List (Change T) → Bool
  | c1 :: c2 :: rest => fusedPair c1 c2 && fused (c2 :: rest)
  | _ => true

/-- Change lists built from the empty list solely by calls to the
coalescing primitives `insert` and `remove`. -/
inductive Built {T : Type u} : List (Change T) → Prop
  | nil : Built []
  | ins : ∀ (n : Nat) (item : T) (changes : List (Change T)),
      Built changes → Built (insert n item changes)
  | rem : ∀ (n : Nat) (changes : List (Change T)),
      Built changes → Built (remove n changes)

theorem fusedPair_update (y : Change T) (n : Nat) (item : T) :
    fusedPair y (Change.Update (n, item)) = true := by
  cases y with
  | Remove a => rfl
  | Insert p => rfl
  | Update p => rfl

theorem fused_snoc :
    ∀ (l : List (Change T)) (e : Change T),
      fused (l ++ [e]) = (fused l &&
        (match l.getLast? with
         | none => true
         | some y => fusedPair y e)) := by
  intro l
  induction l with
  | nil => intro e; simp [fused]
  | cons x xs ih =>
    intro e
    cases xs with
    | nil => simp [fused]
    | cons y ys =>
      have ih2 := ih e
      rw [List.cons_append] at ih2
      simp only [List.cons_append, fused, List.append_eq]
      rw [ih2, List.getLast?_cons_cons, Bool.and_assoc]

theorem fused_append_left :
    ∀ (l1 l2 : List (Change T)), fused (l1 ++ l2) = true → fused l1 = true := by
  intro l1
  induction l1 with
  | nil => intro l2 _; rfl
  | cons x xs ih =>
    intro l2 h
    cases xs with
    | nil => rfl
    | cons y ys =>
      simp only [List.cons_append, fused, Bool.and_eq_true] at h ⊢
      exact ⟨h.1, ih l2 h.2⟩

theorem fused_dropLast {l : List (Change T)} (h : fused l = true) :
    fused l.dropLast = true := by
  cases hl : l.getLast? with
  | none =>
    cases l with
    | nil => rfl
    | cons x xs => simp at hl
  | some y =>
    have hd := getLast?_some_decomp hl
    exact fused_append_left l.dropLast [y] (by rw [← hd]; exact h)

theorem fused_insert {changes : List (Change T)} (n : Nat) (item : T)
    (h : fused changes = true) : fused (insert n item changes) = true := by
  cases hl : changes.getLast? with
  | none =>
    rw [insert_spec_app (by simp [hl]), fused_snoc, hl]
    simp [h]
  | some c =>
    cases c with
    | Remove p =>
      by_cases hn : n = p
      · subst hn
        rw [insert_spec_fuse hl, fused_snoc]
        cases hdl : changes.dropLast.getLast? with
        | none => simp [fused_dropLast h]
        | some y => simp [fused_dropLast h, fusedPair_update]
      · rw [insert_spec_app ?_, fused_snoc, hl]
        · simp [fusedPair, h, hn]
        · rw [hl]
          intro hcon
          rw [Option.some_inj] at hcon
          cases hcon
          exact hn rfl
    | Insert p =>
      rw [insert_spec_app (by simp [hl]), fused_snoc, hl]
      obtain ⟨q, it⟩ := p
      simp [h, fusedPair]
    | Update p =>
      rw [insert_spec_app (by simp [hl]), fused_snoc, hl]
      obtain ⟨q, it⟩ := p
      simp [h, fusedPair]

theorem fused_remove {changes : List (Change T)} (n : Nat)
    (h : fused changes = true) : fused (remove n changes) = true := by
  cases hl : changes.getLast? with
  | none =>
    rw [remove_spec_app (by simp [hl]), fused_snoc, hl]
    simp [h]
  | some c =>
    cases c with
    | Remove p =>
      rw [remove_spec_app (by simp [hl]), fused_snoc, hl]
      simp [h, fusedPair]
    | Insert pi =>
      obtain ⟨p, item⟩ := pi
      by_cases hn : n = p + 1
      · subst hn
        rw [remove_spec_fuse hl, fused_snoc]
        cases hdl : changes.dropLast.getLast? with
        | none => simp [fused_dropLast h]
        | some y => simp [fused_dropLast h, fusedPair_update]
      · rw [remove_spec_app ?_, fused_snoc, hl]
        · simp [fusedPair, h, hn]
        · intro q it hq
          rw [hl] at hq
          rw [Option.some_inj] at hq
          cases hq
          exact hn
    | Update p =>
      rw [remove_spec_app (by simp [hl]), fused_snoc, hl]
      simp [h, fusedPair]

theorem built_fused {changes : List (Change T)} (h : Built changes) :
    fused changes = true := by
  induction h with
  | nil => rfl
  | ins n item c _ ih => exact fused_insert n item ih
  | rem n c _ ih => exact fused_remove n ih

theorem built_diff_go :
    ∀ (d : List (DiffResult T)) (i removed : Nat) (changes : List (Change T)),
      Built changes → Built (diff_changes_go d i removed changes) := by
  intro d
  induction d with
  | nil => intro i removed changes h; exact h
  | cons j rest ih =>
    intro i removed changes h
    cases j with
    | Left x => exact ih _ _ _ (Built.rem _ _ h)
    | Right r => exact ih _ _ _ (Built.ins _ _ _ h)
    | Both x y => exact ih _ _ _ h

theorem built_lcs_go :
    ∀ (d : List (LcsDiffResult T)) (removed added : Nat)
      (changes cs : List (Change T)),
      Built changes → lcs_changes_go d removed added changes = some cs → Built cs := by
  intro d
  induction d with
  | nil =>
    intro removed added changes cs h heq
    simp only [lcs_changes_go, Option.some_inj] at heq
    exact heq ▸ h
  | cons j rest ih =>
    intro removed added changes cs h heq
    cases j with
    | Removed r =>
      simp only [lcs_changes_go] at heq
      cases hidx : r.old_index with
      | none => rw [hidx] at heq; simp at heq
      | some k =>
        rw [hidx] at heq
        exact ih _ _ _ _ (Built.rem _ _ h) heq
    | Added r =>
      simp only [lcs_changes_go] at heq
      cases hidx : r.new_index with
      | none => rw [hidx] at heq; simp at heq
      | some k =>
        rw [hidx] at heq
        exact ih _ _ _ _ (Built.ins _ _ _ h) heq
    | Common r =>
      simp only [lcs_changes_go] at heq
      exact ih _ _ _ _ h heq

theorem built_wu_go (b : List T) :
    ∀ (d : List WuDiffResult) (removed added : Nat)
      (changes cs : List (Change T)),
      Built changes → wu_changes_go b d removed added changes = some cs → Built cs := by
  intro d
  induction d with
  | nil =>
    intro removed added changes cs h heq
    simp only [wu_changes_go, Option.some_inj] at heq
    exact heq ▸ h
  | cons j rest ih =>
    intro removed added changes cs h heq
    cases j with
    | Removed r =>
      simp only [wu_changes_go] at heq
      cases hidx : r.old_index with
      | none => rw [hidx] at heq; simp at heq
      | some k =>
        rw [hidx] at heq
        exact ih _ _ _ _ (Built.rem _ _ h) heq
    | Added r =>
      cases hidx : r.new_index with
      | none =>
        simp only [wu_changes_go, hidx] at heq
        simp at heq
      | some k =>
        simp only [wu_changes_go, hidx] at heq
        cases hget : b[k]? with
        | none => rw [hget] at heq; simp at heq
        | some item =>
          rw [hget] at heq
          exact ih _ _ _ _ (Built.ins _ _ _ h) heq
    | Common r =>
      simp only [wu_changes_go] at heq
      exact ih _ _ _ _ h heq

/-! ### Failure characterization of the LCS/Wu adapters -/

/-- An LCS-style record stream contains a record with a missing required
index: a `Removed` without `old_index` or an `Added` without `new_index`. -/
def lcsHasMissing : List (LcsDiffResult T) → Bool
  | [] => false
  | LcsDiffResult.Removed r :: rest => r.old_index.isNone || lcsHasMissing rest
  | LcsDiffResult.Added r :: rest => r.new_index.isNone || lcsHasMissing rest
  | LcsDiffResult.Common _ :: rest => lcsHasMissing rest

/-- A Wu-style record stream contains a record with a missing required
index. -/
def wuHasMissing : List WuDiffResult → Bool
  | [] => false
  | WuDiffResult.Removed r :: rest => r.old_index.isNone || wuHasMissing rest
  | WuDiffResult.Added r :: rest => r.new_index.isNone || wuHasMissing rest
  | WuDiffResult.Common _ :: rest => wuHasMissing rest

/-- A Wu-style record stream makes `wu_changes` panic against target `b`:
a missing required index, or an `Added` whose new-sequence index is out of
bounds of `b`. -/
def wuBad (b : List T) : List WuDiffResult → Bool
  | [] => false
  | WuDiffResult.Removed r :: rest => r.old_index.isNone || wuBad b rest
  | WuDiffResult.Added r :: rest =>
    (match r.new_index with
     | none => true
     | some k => decide (b.length ≤ k)) || wuBad b rest
  | WuDiffResult.Common _ :: rest => wuBad b rest

theorem lcs_go_none_iff :
    ∀ (d : List (LcsDiffResult T)) (removed added : Nat) (changes : List (Change T)),
      lcs_changes_go d removed added changes = none ↔ lcsHasMissing d = true := by
  intro d
  induction d with
  | nil => intro removed added changes; simp [lcs_changes_go, lcsHasMissing]
  | cons j rest ih =>
    intro removed added changes
    cases j with
    | Removed r =>
      cases hidx : r.old_index with
      | none => simp [lcs_changes_go, lcsHasMissing, hidx]
      | some k => simp [lcs_changes_go, lcsHasMissing, hidx, ih]
    | Added r =>
      cases hidx : r.new_index with
      | none => simp [lcs_changes_go, lcsHasMissing, hidx]
      | some k => simp [lcs_changes_go, lcsHasMissing, hidx, ih]
    | Common r => simp [lcs_changes_go, lcsHasMissing, ih]

theorem wu_go_none_iff (b : List T) :
    ∀ (d : List WuDiffResult) (removed added : Nat) (changes : List (Change T)),
      wu_changes_go b d removed added changes = none ↔ wuBad b d = true := by
  intro d
  induction d with
  | nil => intro removed added changes; simp [wu_changes_go, wuBad]
  | cons j rest ih =>
    intro removed added changes
    cases j with
    | Removed r =>
      cases hidx : r.old_index with
      | none => simp [wu_changes_go, wuBad, hidx]
      | some k => simp [wu_changes_go, wuBad, hidx, ih]
    | Added r =>
      cases hidx : r.new_index with
      | none => simp [wu_changes_go, wuBad, hidx]
      | some k =>
        cases hget : b[k]? with
        | none =>
          have hlen : b.length ≤ k := by
            rw [← List.getElem?_eq_none_iff]
            exact hget
          simp [wu_changes_go, wuBad, hidx, hget, hlen]
        | some item =>
          have hlen : ¬ b.length ≤ k := by
            intro hle
            rw [← List.getElem?_eq_none_iff] at hle
            simp [hle] at hget
          simp [wu_changes_go, wuBad, hidx, hget, hlen, ih]
    | Common r => simp [wu_changes_go, wuBad, ih]

/-! ### Totality of the edit-script adapter's index arithmetic -/

/-- Number of `Left` (source-only) records in an edit script. -/
def leftCount : List (DiffResult T) → Nat
  | [] => 0
  | DiffResult.Left _ :: rest => leftCount rest + 1
  | _ :: rest => leftCount rest

/-- `diff_changes_go` with an explicit guard on the `usize` subtraction
`i - removed`: a `none` result would signal an underflow. -/
def diff_changes_chk_go : List (DiffResult T) → Nat → Nat → List (Change T) →
    Option (List (Change T))
  | [], _, _, changes => some changes
  | DiffResult.Left _ :: rest, i, removed, changes =>
    if removed ≤ i then
      diff_changes_chk_go rest (i + 1) (removed + 1) (remove (i - removed) changes)
    else none
  | DiffResult.Right r :: rest, i, removed, changes =>
    if removed ≤ i then
      diff_changes_chk_go rest (i + 1) removed (insert (i - removed) r changes)
    else none
  | DiffResult.Both _ _ :: rest, i, removed, changes =>
    diff_changes_chk_go rest (i + 1) removed changes

/-- `diff_changes` with the underflow guard. -/
def diff_changes_chk (d : List (DiffResult T)) : Option (List (Change T)) :=
  diff_changes_chk_go d 0 0 []

/-- `lcs_changes_go` with an explicit guard on the `usize` subtraction
`old_index + added - removed`: a `none` result signals a missing index or
an underflow. -/
def lcs_changes_chk_go : List (LcsDiffResult T) → Nat → Nat → List (Change T) →
    Option (List (Change T))
  | [], _, _, changes => some changes
  | LcsDiffResult.Removed r :: rest, removed, added, changes =>
    match r.old_index with
    | none => none
    | some k =>
      if removed ≤ k + added then
        lcs_changes_chk_go rest (removed + 1) added (remove (k + added - removed) changes)
      else none
  | LcsDiffResult.Added r :: rest, removed, added, changes =>
    match r.new_index with
    | none => none
    | some n => lcs_changes_chk_go rest removed (added + 1) (insert n r.data changes)
  | LcsDiffResult.Common _ :: rest, removed, added, changes =>
    lcs_changes_chk_go rest removed added changes

/-- `lcs_changes` with the underflow guard. -/
def lcs_changes_chk (d : List (LcsDiffResult T)) : Option (List (Change T)) :=
  lcs_changes_chk_go d 0 0 []

/-- `wu_changes_go` with an explicit guard on the `usize` subtraction
`old_index + added - removed`. -/
def wu_changes_chk_go (b : List T) : List WuDiffResult → Nat → Nat → List (Change T) →
    Option (List (Change T))
  | [], _, _, changes => some changes
  | WuDiffResult.Removed r :: rest, removed, added, changes =>
    match r.old_index with
    | none => none
    | some k =>
      if removed ≤ k + added then
        wu_changes_chk_go b rest (removed + 1) added (remove (k + added - removed) changes)
      else none
  | WuDiffResult.Added r :: rest, removed, added, changes =>
    match r.new_index with
    | none => none
    | some n =>
      match b[n]? with
      | none => none
      | some item => wu_changes_chk_go b rest removed (added + 1) (insert n item changes)
  | WuDiffResult.Common _ :: rest, removed, added, changes =>
    wu_changes_chk_go b rest removed added changes

/-- `wu_changes` with the underflow guard. -/
def wu_changes_chk (d : List WuDiffResult) (b : List T) : Option (List (Change T)) :=
  wu_changes_chk_go b d 0 0 []

theorem diff_chk_go_eq :
    ∀ (d : List (DiffResult T)) (i removed : Nat) (changes : List (Change T)),
      removed ≤ i →
      diff_changes_chk_go d i removed changes = some (diff_changes_go d i removed changes) := by
  intro d
  induction d with
  | nil => intro i removed changes _; rfl
  | cons j rest ih =>
    intro i removed changes h
    cases j with
    | Left x =>
      simp only [diff_changes_chk_go, diff_changes_go, if_pos h]
      exact ih _ _ _ (by omega)
    | Right r =>
      simp only [diff_changes_chk_go, diff_changes_go, if_pos h]
      exact ih _ _ _ (by omega)
    | Both x y =>
      simp only [diff_changes_chk_go, diff_changes_go]
      exact ih _ _ _ (by omega)

theorem leftCount_le_length : ∀ (d : List (DiffResult T)), leftCount d ≤ d.length := by
  intro d
  induction d with
  | nil => simp [leftCount]
  | cons j rest ih =>
    cases j with
    | Left x => simp [leftCount]; omega
    | Right r => simp [leftCount]; omega
    | Both x y => simp [leftCount]; omega

/-- State decomposition of the `diff_changes` loop: starting from any
state, after consuming the first `i` records the loop index has advanced
by `i` and the `removed` counter has grown by exactly the number of `Left`
records among them. -/
theorem diff_go_decomp :
    ∀ (d : List (DiffResult T)) (i0 removed0 : Nat) (c0 : List (Change T)) (i : Nat),
      diff_changes_go d i0 removed0 c0 =
        diff_changes_go (d.drop i) (i0 + i) (removed0 + leftCount (d.take i))
          (diff_changes_go (d.take i) i0 removed0 c0) := by
  intro d
  induction d with
  | nil =>
    intro i0 removed0 c0 i
    simp [diff_changes_go, leftCount]
  | cons j rest ih =>
    intro i0 removed0 c0 i
    cases i with
    | zero => simp [diff_changes_go, leftCount]
    | succ k =>
      cases j with
      | Left x =>
        simp only [List.drop_succ_cons, List.take_succ_cons, diff_changes_go, leftCount]
        rw [ih (i0 + 1) (removed0 + 1) (remove (i0 - removed0) c0) k]
        have h1 : i0 + (k + 1) = i0 + 1 + k := by omega
        have h2 : removed0 + (leftCount (rest.take k) + 1) = removed0 + 1 + leftCount (rest.take k) := by
          omega
        rw [h1, h2]
      | Right r =>
        simp only [List.drop_succ_cons, List.take_succ_cons, diff_changes_go, leftCount]
        rw [ih (i0 + 1) removed0 (insert (i0 - removed0) r c0) k]
        have h1 : i0 + (k + 1) = i0 + 1 + k := by omega
        rw [h1]
      | Both x y =>
        simp only [List.drop_succ_cons, List.take_succ_cons, diff_changes_go, leftCount]
        rw [ih (i0 + 1) removed0 c0 k]
        have h1 : i0 + (k + 1) = i0 + 1 + k := by omega
        rw [h1]

/-! ### Claim theorems -/

/-- C1: for every pair of slices over an element type with decidable
equality and each of the three backends `diff_diff`, `lcs_diff`,
`wu_diff`, replaying the produced change list against `a` reproduces `b`
exactly: `patch(a, diff_diff(a, b)) == b`, and likewise for the other two
backends. -/
theorem c1_round_trip {T : Type u} [DecidableEq T] (a b : List T) :
    patch a (diff_diff a b) = some b ∧
    (lcs_diff a b).bind (fun cs => patch a cs) = some b ∧
    (wu_diff a b).bind (fun cs => patch a cs) = some b := by
  refine ⟨patch_diff_diff a b, ?_, ?_⟩
  · obtain ⟨cs, hcs, hp⟩ := lcs_diff_roundtrip a b
    rw [hcs]
    simpa using hp
  · obtain ⟨cs, hcs, hp⟩ := wu_diff_roundtrip a b
    rw [hcs]
    simpa using hp

/-- C2: if the last entry of `changes` is `Remove(p)` with `p == n`,
`insert(n, x, changes)` replaces that last entry with `Update((n, x))` and
appends nothing; in every other case (empty list, last entry not a
`Remove`, or `p != n`) it leaves all entries unchanged and appends
`Insert((n, x))` at the end. -/
theorem c2_insert_spec {T : Type u} (changes : List (Change T)) (n : Nat) (x : T) :
    (changes.getLast? = some (Change.Remove n) →
      insert n x changes = changes.dropLast ++ [Change.Update (n, x)]) ∧
    (changes.getLast? ≠ some (Change.Remove n) →
      insert n x changes = changes ++ [Change.Insert (n, x)]) :=
  ⟨fun h => insert_spec_fuse h, fun h => insert_spec_app h⟩

theorem c2_insert_spec_witness :
    insert 2 (7 : Nat) [Change.Remove 2] =
      ([Change.Remove 2] : List (Change Nat)).dropLast ++ [Change.Update (2, 7)] ∧
    insert 1 (7 : Nat) [Change.Remove 2] = [Change.Remove 2] ++ [Change.Insert (1, 7)] :=
  ⟨(c2_insert_spec [Change.Remove 2] 2 7).1 (by decide),
   (c2_insert_spec [Change.Remove 2] 1 7).2 (by decide)⟩

/-- C3: if the last entry of `changes` is `Insert((p, item))` with
`n == p + 1`, `remove(n, changes)` replaces that last entry with
`Update((p, item))` and appends nothing; in every other case it leaves all
entries unchanged and appends `Remove(n)` at the end. -/
theorem c3_remove_spec {T : Type u} (changes : List (Change T)) (n : Nat) :
    (∀ (p : Nat) (item : T),
      changes.getLast? = some (Change.Insert (p, item)) → n = p + 1 →
      remove n changes = changes.dropLast ++ [Change.Update (p, item)]) ∧
    ((∀ (p : Nat) (item : T),
      changes.getLast? = some (Change.Insert (p, item)) → n ≠ p + 1) →
      remove n changes = changes ++ [Change.Remove n]) :=
  ⟨fun p item h he => by subst he; exact remove_spec_fuse h,
   fun h => remove_spec_app h⟩

theorem c3_remove_spec_witness :
    remove 3 [Change.Insert (2, (7 : Nat))] =
      ([Change.Insert (2, 7)] : List (Change Nat)).dropLast ++ [Change.Update (2, 7)] ∧
    remove 1 [Change.Insert (2, (7 : Nat))] = [Change.Insert (2, 7)] ++ [Change.Remove 1] :=
  ⟨(c3_remove_spec [Change.Insert (2, 7)] 3).1 2 7 (by decide) (by decide),
   (c3_remove_spec [Change.Insert (2, 7)] 1).2 (by
      intro p item h
      simp at h
      omega)⟩

/-- C4: every change list built from the empty list solely by the
coalescing primitives `insert` and `remove` — in particular every output
of `diff_changes`, `lcs_changes`, and `wu_changes` — contains no adjacent
`Remove(n), Insert((n, x))` pair and no adjacent
`Insert((n, x)), Remove(n+1)` pair. -/
theorem c4_fusion_canonical {T : Type u} :
    (∀ c : List (Change T), Built c → fused c = true) ∧
    (∀ d : List (DiffResult T), fused (diff_changes d) = true) ∧
    (∀ (d : List (LcsDiffResult T)) (cs : List (Change T)),
      lcs_changes d = some cs → fused cs = true) ∧
    (∀ (d : List WuDiffResult) (b : List T) (cs : List (Change T)),
      wu_changes d b = some cs → fused cs = true) := by
  refine ⟨fun c h => built_fused h, fun d => ?_, fun d cs h => ?_, fun d b cs h => ?_⟩
  · exact built_fused (built_diff_go d 0 0 [] Built.nil)
  · exact built_fused (built_lcs_go d 0 0 [] cs Built.nil h)
  · exact built_fused (built_wu_go b d 0 0 [] cs Built.nil h)

theorem c4_fusion_canonical_witness :
    fused (insert 0 (5 : Nat) (remove 0 [])) = true ∧
    fused ([] : List (Change Nat)) = true :=
  ⟨c4_fusion_canonical.1 _ (Built.ins 0 5 _ (Built.rem 0 [] Built.nil)),
   c4_fusion_canonical.2.2.1 [] [] (by decide)⟩

/-- C5: for an in-bounds position, an `Update((n, x))` at the head of the
change list behaves through `patch` exactly like `Remove(n)` followed by
`Insert((n, x))` at the same position. -/
theorem c5_update_equiv {T : Type u} (s : List T) (n : Nat) (x : T)
    (rest : List (Change T)) (h : n < s.length) :
    patch s (Change.Update (n, x) :: rest) =
      patch s (Change.Remove n :: Change.Insert (n, x) :: rest) := by
  simp only [patch, applyChange]
  cases vec_remove s n with
  | none => simp
  | some w => simp

theorem c5_update_equiv_witness :
    0 < ([10, 20] : List Nat).length ∧
    patch [10, 20] [Change.Update (0, (9 : Nat))] =
      patch [10, 20] [Change.Remove 0, Change.Insert (0, 9)] :=
  ⟨by decide, c5_update_equiv [10, 20] 0 9 [] (by decide)⟩

/-- C6: diffing a slice against itself yields the empty change list for
all three backends. -/
theorem c6_empty_diff {T : Type u} [DecidableEq T] (s : List T) :
    diff_diff s s = [] ∧ lcs_diff s s = some [] ∧ wu_diff s s = some [] :=
  ⟨diff_diff_self s, lcs_diff_self s, wu_diff_self s⟩

/-- C7: on the crate documentation example, `diff_diff` and `wu_diff`
return `[Insert((0,"zero")), Remove(2), Update((2,"two"))]`, `lcs_diff`
returns `[Insert((0,"zero")), Update((2,"two")), Remove(3)]`, and patching
the source with each list yields the target. -/
theorem c7_doc_example :
    diff_diff ["one", "TWO", "three", "four"] ["zero", "one", "two", "four"] =
      [Change.Insert (0, "zero"), Change.Remove 2, Change.Update (2, "two")] ∧
    lcs_diff ["one", "TWO", "three", "four"] ["zero", "one", "two", "four"] =
      some [Change.Insert (0, "zero"), Change.Update (2, "two"), Change.Remove 3] ∧
    wu_diff ["one", "TWO", "three", "four"] ["zero", "one", "two", "four"] =
      some [Change.Insert (0, "zero"), Change.Remove 2, Change.Update (2, "two")] ∧
    patch ["one", "TWO", "three", "four"]
        [Change.Insert (0, "zero"), Change.Remove 2, Change.Update (2, "two")] =
      some ["zero", "one", "two", "four"] ∧
    patch ["one", "TWO", "three", "four"]
        [Change.Insert (0, "zero"), Change.Update (2, "two"), Change.Remove 3] =
      some ["zero", "one", "two", "four"] :=
  ⟨by decide, by decide, by decide, by decide, by decide⟩

/-- C8: during `patch`, `Remove(n)` fails exactly when `n` is out of
bounds of the working sequence, `Insert((n, x))` is valid exactly for
`n` in `[0, length]`, `Update((n, x))` fails exactly when `n` is out of
bounds; and change lists produced by a backend from the same source never
reach the failure branch. -/
theorem c8_patch_bounds {T : Type u} [DecidableEq T] :
    (∀ (w : List T) (n : Nat), applyChange w (Change.Remove n) = none ↔ w.length ≤ n) ∧
    (∀ (w : List T) (n : Nat) (x : T),
      (applyChange w (Change.Insert (n, x))).isSome = true ↔ n ≤ w.length) ∧
    (∀ (w : List T) (n : Nat) (x : T),
      applyChange w (Change.Update (n, x)) = none ↔ w.length ≤ n) ∧
    (∀ a b : List T,
      (patch a (diff_diff a b)).isSome = true ∧
      ((lcs_diff a b).bind (fun cs => patch a cs)).isSome = true ∧
      ((wu_diff a b).bind (fun cs => patch a cs)).isSome = true) := by
  refine ⟨fun w n => vec_remove_none_iff w n, fun w n x => vec_insert_isSome_iff w n x,
    fun w n x => update_none_iff w n x, fun a b => ⟨?_, ?_, ?_⟩⟩
  · rw [patch_diff_diff]
    rfl
  · obtain ⟨cs, hcs, hp⟩ := lcs_diff_roundtrip a b
    rw [hcs]
    simp [hp]
  · obtain ⟨cs, hcs, hp⟩ := wu_diff_roundtrip a b
    rw [hcs]
    simp [hp]

/-- C9 counterexample: `wu_changes` fails on a stream that contains no
record with a missing required index — an `Added` whose present new-index
is out of bounds of `b` — refuting the claimed "fails if and only if a
required index is missing" for `wu_changes`. -/
theorem c9_fail_iff_missing_counterexample :
    wuHasMissing [WuDiffResult.Added ⟨none, some 5⟩] = false ∧
    wu_changes [WuDiffResult.Added ⟨none, some 5⟩] ([] : List Nat) = none :=
  ⟨by decide, by decide⟩

/-- C9 (amended): `lcs_changes` fails exactly when the input contains a
`Removed` record with a missing old-sequence index or an `Added` record
with a missing new-sequence index; `wu_changes` fails exactly when the
input contains such a missing index or an `Added` record whose
new-sequence index is out of bounds of the target slice `b`. -/
theorem c9_fail_iff_missing_amended {T : Type u}
    (d : List (LcsDiffResult T)) (dw : List WuDiffResult) (b : List T) :
    (lcs_changes d = none ↔ lcsHasMissing d = true) ∧
    (wu_changes dw b = none ↔ wuBad b dw = true) :=
  ⟨lcs_go_none_iff d 0 0 [], wu_go_none_iff b dw 0 0 []⟩

/-- C10: `diff_changes` is total over every input: at each iteration the
`removed` counter equals the number of `Left` records strictly before the
loop index `i`, so `removed ≤ i` always holds and the working position
`i - removed` never underflows (the underflow-guarded variant never
fails); by contrast the `old_index + added - removed` arithmetic of
`lcs_changes` and `wu_changes` can underflow, so their guarded variants
fail on ill-formed input. -/
theorem c10_diff_changes_total {T : Type u} (d : List (DiffResult T)) :
    (∀ i : Nat, diff_changes d =
      diff_changes_go (d.drop i) i (leftCount (d.take i)) (diff_changes (d.take i))) ∧
    (∀ i : Nat, leftCount (d.take i) ≤ i) ∧
    diff_changes_chk d = some (diff_changes d) ∧
    lcs_changes_chk [LcsDiffResult.Removed ⟨some 0, none, (0 : Nat)⟩,
      LcsDiffResult.Removed ⟨some 0, none, 0⟩] = none ∧
    wu_changes_chk [WuDiffResult.Removed ⟨some 0, none⟩,
      WuDiffResult.Removed ⟨some 0, none⟩] ([0] : List Nat) = none := by
  refine ⟨fun i => ?_, fun i => ?_, diff_chk_go_eq d 0 0 [] (le_refl 0), by decide, by decide⟩
  · simpa [diff_changes] using diff_go_decomp d 0 0 [] i
  · exact le_trans (leftCount_le_length _) (by rw [List.length_take]; exact min_le_left _ _)

end SliceDiffPatch
